import Mathlib

/-!
Verification development for the `esm-resolve` module resolver.

The definitions below are a shallow embedding of the repository's source:

* `src/lib/node.js` / `src/lib/node.ts` — `matchModuleNodePath`, `matchModuleNode`
  (conditional export/import matching);
* `src/unnamed/part_001` (the current `index.js`, the one whose option set —
  including `checkNestedPackages` — matches the spec) — `nodeResolve`,
  `confirmPath`, `resolve`;
* `src/lib/helper.js` — `isLocal`, `statIsFile`.

External collaborators (synchronous filesystem stat, WHATWG URL parse/resolve,
`path.relative`, and the package-locating machinery built on
`require.resolve.paths` + `fs` + `JSON.parse`) are modelled as components of an
abstract environment, as the spec directs (§1, §6: they are "assumed to exist
as simple synchronous primitives" and are "not specified further").

Node's `path.posix.normalize` and `path.posix.join` (used by the source via
`path.normalize` / `path.join`) are embedded faithfully at the character-list
level, following Node's `normalizeString` algorithm.
-/

/-- JS `String.prototype.startsWith`, embedded over the character sequence
(kept away from `String.startsWith`'s byte-level internals so that all
definitions evaluate by reduction). -/
def strStartsWith (s p : String) : Bool := p.data.isPrefixOf s.data

/-- JS `String.prototype.endsWith`, embedded over the character sequence. -/
def strEndsWith (s p : String) : Bool := p.data.isSuffixOf s.data

/-- Local specifier check, from `src/lib/helper.js`:
`p === '.' || p.startsWith('./')`. -/
def isLocal (p : String) : Bool := p == "." || strStartsWith p "./"

/- ### Node's posix path normalization, embedded over `List Char`. -/

/-- Split a character list on `'/'`, keeping empty segments
(as Node's `normalizeString` scanner does between consecutive separators). -/
def splitSlashAux : List Char → List Char → List (List Char)
  | [], cur => [cur.reverse]
  | c :: rem, cur =>
    if c = '/' then cur.reverse :: splitSlashAux rem []
    else splitSlashAux rem (c :: cur)

def splitSlash (l : List Char) : List (List Char) := splitSlashAux l []

/-- One step of Node's `normalizeString` stack machine. The stack is kept in
reverse order (innermost segment first). Empty and `"."` segments are dropped;
`".."` pops a normal segment, and is kept only when `allowAboveRoot` and the
stack is empty or already ends in `".."`; other segments are pushed. -/
def pushSeg (allowAboveRoot : Bool) (stack : List (List Char)) (seg : List Char) :
    List (List Char) :=
  if seg = [] ∨ seg = ['.'] then stack
  else if seg = ['.', '.'] then
    match stack with
    | top :: rem =>
      if top = ['.', '.'] then (if allowAboveRoot then ['.', '.'] :: stack else stack)
      else rem
    | [] => if allowAboveRoot then [['.', '.']] else []
  else seg :: stack

/-- Join segments with `'/'`. -/
def joinSlash : List (List Char) → List Char
  | [] => []
  | [s] => s
  | s :: rem => s ++ '/' :: joinSlash rem

/-- Node's `normalizeString(path, allowAboveRoot, '/', ...)` over characters. -/
def normalizeStringL (l : List Char) (allowAboveRoot : Bool) : List Char :=
  joinSlash (((splitSlash l).foldl (pushSeg allowAboveRoot) []).reverse)

/-- Node's `path.posix.normalize`, over characters. -/
def pathNormalizeL (l : List Char) : List Char :=
  if l = [] then ['.']
  else
    let isAbs : Bool := l.head? = some '/'
    let trailing : Bool := l.getLast? = some '/'
    let res := normalizeStringL l (!isAbs)
    if res = [] then
      if isAbs then ['/']
      else if trailing then ['.', '/'] else ['.']
    else
      let res := if trailing then res ++ ['/'] else res
      if isAbs then '/' :: res else res

/-- Node's `path.normalize` on strings (posix flavor, as on the target OS). -/
def pathNormalize (s : String) : String := ⟨pathNormalizeL s.data⟩

/-- Node's `path.posix.join` restricted to two arguments (the only way the
source calls it): empty parts are dropped, the rest joined with `'/'` and
normalized; an empty join yields `"."`. -/
def pathJoin (a b : String) : String :=
  let joined : List Char :=
    if a.data = [] then b.data
    else if b.data = [] then a.data
    else a.data ++ '/' :: b.data
  if joined = [] then "." else ⟨pathNormalizeL joined⟩

/- ### The exports/imports node data model (spec §3). -/

/-- Recursive manifest node: a terminal string or an ordered key/value mapping
(`InternalPackageModuleNode` in the source's types). -/
inductive ExportsNode where
  | terminal : String → ExportsNode
  | mapping : List (String × ExportsNode) → ExportsNode
deriving Inhabited

mutual

/-- Structural size of a manifest node (used only as a depth bound for the
condition-descent loop; manifests are finite trees, spec §3). -/
def nodeSize : ExportsNode → Nat
  | .terminal _ => 1
  | .mapping es => 1 + entriesSize es

def entriesSize : List (String × ExportsNode) → Nat
  | [] => 0
  | (_, v) :: rem => 1 + nodeSize v + entriesSize rem

end

/-- JS truthiness of a manifest node (`if (pkg.info.exports)`,
`while (node && ...)`): the empty string is falsy, every mapping truthy. -/
def nodeTruthy : ExportsNode → Bool
  | .terminal s => !(s == "")
  | .mapping _ => true

/-- Result of `matchModuleNodePath`: the matched node (if any) plus the
recorded wildcard capture (if a pattern key matched). -/
structure PathMatch where
  node : Option ExportsNode
  subpath : Option String

/-- The key scan of `matchModuleNodePath` (src/lib/node.js, lines 38-61):
`whole` is the complete mapping (the JS `exports` object, recorded as the
fallback when a condition-looking key is seen), `fb` whether the fallback has
been recorded, and the last argument is the remaining (key, child) pairs in
declaration order. -/
def matchEntries (whole : List (String × ExportsNode)) (rest : String) :
    List (String × ExportsNode) → Bool → PathMatch
  | [], fb => if fb then ⟨some (.mapping whole), none⟩ else ⟨none, none⟩
  | (key, child) :: rem, fb =>
    if !strStartsWith key "#" && !isLocal key then
      -- it might be "import" and so on
      matchEntries whole rest rem true
    else if key == rest then
      ⟨some child, none⟩
    else if !(strEndsWith key "/*") then
      matchEntries whole rest rem fb
    else
      let pref := key.dropRight 1
      if strStartsWith rest pref && rest.length > pref.length then
        let sub := rest.drop pref.length
        if pathNormalize sub == sub then ⟨some child, some sub⟩
        else matchEntries whole rest rem fb
      else matchEntries whole rest rem fb

/-- `matchModuleNodePath(exports, rest)` from src/lib/node.js: a terminal node
matches outright; a mapping is scanned in declaration order. -/
def matchModuleNodePath : ExportsNode → String → PathMatch
  | .terminal s, _ => ⟨some (.terminal s), none⟩
  | .mapping entries, rest => matchEntries entries rest entries false

/-- `const alwaysConstraints = ['module', 'import'];` from src/lib/node.js. -/
def alwaysConstraints : List String := ["module", "import"]

/-- The inner `for (const key in node)` scan of `matchModuleNode`: first key
that is an always-satisfied constraint or a caller constraint. -/
def firstCondMatch (cs : List String) : List (String × ExportsNode) → Option ExportsNode
  | [] => none
  | (k, v) :: rem =>
    if alwaysConstraints.contains k || cs.contains k then some v
    else firstCondMatch cs rem

/-- Plain JS property lookup `node[key]` on the ordered mapping. -/
def lookupKey (key : String) : List (String × ExportsNode) → Option ExportsNode
  | [] => none
  | (k, v) :: rem => if k == key then some v else lookupKey key rem

/-- One round of the `restart:` loop body of `matchModuleNode`: the first
matching condition key, else `node['default']`. -/
def condStep (cs : List String) (entries : List (String × ExportsNode)) :
    Option ExportsNode :=
  match firstCondMatch cs entries with
  | some v => some v
  | none => lookupKey "default" entries

theorem firstCondMatch_mem {cs : List String} {l : List (String × ExportsNode)}
    {v : ExportsNode} (h : firstCondMatch cs l = some v) : ∃ k, (k, v) ∈ l := by
  induction l with
  | nil => simp [firstCondMatch] at h
  | cons kv rem ih =>
    obtain ⟨k, w⟩ := kv
    rw [firstCondMatch] at h
    split at h
    · exact ⟨k, by simp [Option.some.inj h]⟩
    · obtain ⟨k', hk'⟩ := ih h
      exact ⟨k', by simp [hk']⟩

theorem lookupKey_mem {key : String} {l : List (String × ExportsNode)}
    {v : ExportsNode} (h : lookupKey key l = some v) : ∃ k, (k, v) ∈ l := by
  induction l with
  | nil => simp [lookupKey] at h
  | cons kv rem ih =>
    obtain ⟨k, w⟩ := kv
    rw [lookupKey] at h
    split at h
    · exact ⟨k, by simp [Option.some.inj h]⟩
    · obtain ⟨k', hk'⟩ := ih h
      exact ⟨k', by simp [hk']⟩

theorem condStep_mem {cs : List String} {l : List (String × ExportsNode)}
    {v : ExportsNode} (h : condStep cs l = some v) : ∃ k, (k, v) ∈ l := by
  unfold condStep at h
  cases hf : firstCondMatch cs l with
  | some w => rw [hf] at h; exact firstCondMatch_mem (hf.trans (by simpa using h))
  | none => rw [hf] at h; exact lookupKey_mem h

theorem nodeSize_lt_of_mem_entries {k : String} {v : ExportsNode}
    {l : List (String × ExportsNode)} (h : (k, v) ∈ l) :
    nodeSize v < nodeSize (ExportsNode.mapping l) := by
  have : nodeSize v < 1 + entriesSize l := by
    induction l with
    | nil => simp at h
    | cons kv rem ih =>
      rcases List.mem_cons.mp h with heq | hmem
      · obtain ⟨w, v'⟩ := kv
        obtain ⟨h1, h2⟩ := Prod.mk.injEq .. ▸ heq
        subst h2
        simp [entriesSize]
        omega
      · have := ih hmem
        obtain ⟨w, v'⟩ := kv
        simp [entriesSize]
        omega
  simpa [nodeSize] using this

/-- The `restart:` while-loop of `matchModuleNode` (src/lib/node.js, lines
79-87), with an explicit structural-depth bound so the function stays
executable by reduction: while the node is a mapping, descend into the first
matching condition key, else into `default`; a missing `default` aborts
(JS `undefined`). The JS loop terminates because manifests are finite trees
(spec §3); `condDescendFuel_congr` below shows the bound is irrelevant once
at least `sizeOf node`, and `condDescend_mapping` recovers the loop's exact
recurrence, so the bound is never hit. -/
def condDescendFuel (cs : List String) : Nat → ExportsNode → Option String
  | _, .terminal s => some s
  | 0, .mapping _ => none
  | fuel + 1, .mapping entries =>
    match condStep cs entries with
    | some child => condDescendFuel cs fuel child
    | none => none

theorem one_le_nodeSize (n : ExportsNode) : 1 ≤ nodeSize n := by
  cases n <;> simp [nodeSize]

theorem condDescendFuel_congr (cs : List String) :
    ∀ f f' (n : ExportsNode), nodeSize n ≤ f → nodeSize n ≤ f' →
      condDescendFuel cs f n = condDescendFuel cs f' n := by
  intro f
  induction f with
  | zero =>
    intro f' n h _
    exact absurd h (by have := one_le_nodeSize n; omega)
  | succ f ih =>
    intro f' n h h'
    match n with
    | .terminal s => cases f' <;> rfl
    | .mapping es =>
      match f' with
      | 0 => exact absurd h' (by have := one_le_nodeSize (ExportsNode.mapping es); omega)
      | f' + 1 =>
        rw [condDescendFuel, condDescendFuel]
        cases hstep : condStep cs es with
        | none => rfl
        | some c =>
          obtain ⟨k, hk⟩ := condStep_mem hstep
          have hc : nodeSize c < nodeSize (ExportsNode.mapping es) := nodeSize_lt_of_mem_entries hk
          exact ih f' c (by omega) (by omega)

/-- The condition-key descent of `matchModuleNode`, entered with enough fuel. -/
def condDescend (cs : List String) (node : ExportsNode) : Option String :=
  condDescendFuel cs (nodeSize node) node

theorem condDescend_terminal (cs : List String) (s : String) :
    condDescend cs (.terminal s) = some s := rfl

/-- The exact recurrence of the JS `restart:` loop. -/
theorem condDescend_mapping (cs : List String) (es : List (String × ExportsNode)) :
    condDescend cs (.mapping es) =
      match condStep cs es with
      | some child => condDescend cs child
      | none => none := by
  unfold condDescend
  have hs : nodeSize (ExportsNode.mapping es) = entriesSize es + 1 := by
    simp [nodeSize]; omega
  rw [hs, condDescendFuel]
  cases hstep : condStep cs es with
  | none => rfl
  | some c =>
    obtain ⟨k, hk⟩ := condStep_mem hstep
    have hc : nodeSize c < nodeSize (ExportsNode.mapping es) := nodeSize_lt_of_mem_entries hk
    exact condDescendFuel_congr cs (entriesSize es) (nodeSize c) c (by rw [hs] at hc; omega) le_rfl

/-- The ECMAScript GetSubstitution expansion of a string replacement for one
match of `/\*/` (zero capture groups, matched substring `"*"`): `$$` yields
`$`, `$&` yields the matched `*`, `$` + backtick (code 96) yields the portion
of the original string before the match, `$` + apostrophe (code 39) the
portion after it; any other `$` is literal (with zero groups `$1`..`$99` are
not performed and stay literal). -/
def expandRepl (before after : List Char) : List Char → List Char
  | [] => []
  | ['$'] => ['$']
  | '$' :: d :: rem2 =>
    if d = '$' then '$' :: expandRepl before after rem2
    else if d = '&' then '*' :: expandRepl before after rem2
    else if d.toNat = 96 then before ++ expandRepl before after rem2
    else if d.toNat = 39 then after ++ expandRepl before after rem2
    else '$' :: d :: expandRepl before after rem2
  | c :: rem => c :: expandRepl before after rem

/-- Global wildcard substitution `node.replace(/\*/g, subpath)` with JS
`String.prototype.replace` semantics: each `'*'` match is replaced by the
GetSubstitution expansion of `subpath`, whose positional escapes see the
portions of the original string before (`seen.reverse`) and after (`rem`)
that match. -/
def replaceStarAux (sub : List Char) (seen : List Char) : List Char → List Char
  | [] => []
  | c :: rem =>
    if c = '*' then
      expandRepl seen.reverse rem sub ++ replaceStarAux sub ('*' :: seen) rem
    else c :: replaceStarAux sub (c :: seen) rem

def replaceStar (sub : String) (s : String) : String :=
  ⟨replaceStarAux sub.data [] s.data⟩

/-- `matchModuleNode(exports, rest, constraints)` from src/lib/node.js: match
the subpath, descend through condition keys, reject a falsy result
(`if (!node) return;`), then substitute a recorded wildcard capture. -/
def matchModuleNode (exports : ExportsNode) (rest : String) (cs : List String) :
    Option String :=
  let pm := matchModuleNodePath exports rest
  match pm.node with
  | none => none
  | some n =>
    match condDescend cs n with
    | none => none
    | some s =>
      if s == "" then none
      else
        match pm.subpath with
        | some sub => if sub == "" then some s else some (replaceStar sub s)
        | none => some s

/- ### The Resolver (src/unnamed/part_001, the current `index.js`). -/

/-- A manifest field value: the source only distinguishes strings
(`typeof info[key] === 'string'`, `info['type'] === 'module'`) from
everything else. -/
inductive JsonVal where
  | str : String → JsonVal
  | other : JsonVal

/-- Parsed `package.json` (`InternalPackageJson`): the ordered plain fields
plus the structured `exports`/`imports` nodes. -/
structure PackageInfo where
  fields : List (String × JsonVal)
  exports : Option ExportsNode
  imports : Option ExportsNode

/-- JS `info[key]` restricted to string values: `some s` exactly when the
field is present with a string value. -/
def PackageInfo.getStr (info : PackageInfo) (key : String) : Option String :=
  match info.fields.find? (fun kv => kv.1 == key) with
  | some (_, .str s) => some s
  | _ => none

/-- A located package: directory plus manifest (`{resolved, info}`). -/
structure PackageLocation where
  resolved : String
  info : PackageInfo

/-- `types.ResolverOptions` (defaults in the source: constraints `['browser']`,
allowMissing false, rewritePeerTypes true, allowExportFallback true,
matchNakedMjs false, includeMainFallback true, checkNestedPackages true). -/
structure ResolverOptions where
  constraints : List String
  allowMissing : Bool
  rewritePeerTypes : Bool
  allowExportFallback : Bool
  matchNakedMjs : Bool
  includeMainFallback : Bool
  checkNestedPackages : Bool

/-- `const modulePackageNames = [...]` from the source. -/
def modulePackageNames : List String :=
  ["module", "esnext:main", "esnext", "jsnext:main", "jsnext"]

/-- The `for (const key of modulePackageNames)` probe: first field in the
fixed list holding a string value. -/
def firstStringField (info : PackageInfo) : List String → Option String
  | [] => none
  | k :: rem =>
    match info.getStr k with
    | some s => some s
    | none => firstStringField info rem

/-- The legacy entry-point selection for a package-root import (`simple ===
'.'` block of `nodeResolve`): the first `modulePackageNames` field, else
`main` when `includeMainFallback` is set or the manifest has
`"type": "module"`, else `'.'` itself. -/
def legacyMain (opts : ResolverOptions) (info : PackageInfo) : String :=
  match firstStringField info modulePackageNames with
  | some s => s
  | none =>
    if (opts.includeMainFallback || info.getStr "type" == some "module") &&
        (info.getStr "main").isSome then
      (info.getStr "main").getD "."
    else "."

/-- Outcome of one pass of the `do { ... } while` body of `nodeResolve`:
either the whole function returns (`.ret`), or the loop continues with an
updated `fallbackBest` (`.cont`). -/
inductive IterOut where
  | ret : Option String → IterOut
  | cont : Option String → IterOut

/-- The tail of the loop body after the exports block: legacy entry fields for
a root import, otherwise remember the literal path as `fallbackBest` if it is
the first one constructed. -/
def afterExports (opts : ResolverOptions) (pkg : PackageLocation) (rest : String)
    (fallbackBest : Option String) : IterOut :=
  if rest == "." then
    .ret (some ("file://" ++ pathJoin pkg.resolved (legacyMain opts pkg.info)))
  else
    match fallbackBest with
    | some f => .cont (some f)
    | none => .cont (some ("file://" ++ pathJoin pkg.resolved rest))

/-- One pass of the `do { ... } while` body of `nodeResolve` at prefix length
`index`: derive `(name, rest)`, load the package, try `exports`, then the
legacy/literal fallback. `loadPkg` abstracts `loadPackage` (built on the
collaborator primitives `require.resolve.paths`, `fs`, `JSON.parse`). -/
def nodeResolveIter (opts : ResolverOptions) (loadPkg : String → Option PackageLocation)
    (components : List String) (index : Nat) (fallbackBest : Option String) : IterOut :=
  let name := String.intercalate "/" (components.take index)
  let rest := String.intercalate "/" ("." :: components.drop index)
  match loadPkg name with
  | none => .cont fallbackBest
  | some pkg =>
    match pkg.info.exports with
    | some ex =>
      if nodeTruthy ex then
        match matchModuleNode ex rest opts.constraints with
        | some m =>
          if isLocal m then .ret (some ("file://" ++ pathJoin pkg.resolved m))
          else if !opts.allowExportFallback then .ret none
          else afterExports opts pkg rest fallbackBest
        | none =>
          if !opts.allowExportFallback then .ret none
          else afterExports opts pkg rest fallbackBest
      else afterExports opts pkg rest fallbackBest
    | none => afterExports opts pkg rest fallbackBest

/-- The sequence of prefix lengths the do-while loop visits: the initial
`index`, then — only with `checkNestedPackages` — every longer length up to
`components.length` (`while (checkNestedPackages && ++index <= length)`). -/
def loopIndices (checkNested : Bool) (start len : Nat) : List Nat :=
  start :: (if checkNested then List.range' (start + 1) (len - start) else [])

/-- The do-while loop of `nodeResolve`, iterated over its index sequence;
a `.ret` leaves the function, exhausting the list returns `fallbackBest`. -/
def nodeResolveLoop (opts : ResolverOptions) (loadPkg : String → Option PackageLocation)
    (components : List String) : List Nat → Option String → Option String
  | [], fallbackBest => fallbackBest
  | idx :: rem, fallbackBest =>
    match nodeResolveIter opts loadPkg components idx fallbackBest with
    | .ret r => r
    | .cont fb => nodeResolveLoop opts loadPkg components rem fb

/-- JS `importee.split('/')`, embedded over the character sequence. -/
def strSplitSlash (s : String) : List String := (splitSlash s.data).map (fun l => ⟨l⟩)

/-- `nodeResolve` from the package-name split onward: split the specifier on
`'/'`, scoped names (`@...`) consume two segments, then run the loop. -/
def nodeResolveBody (opts : ResolverOptions) (loadPkg : String → Option PackageLocation)
    (importee : String) : Option String :=
  let components := strSplitSlash importee
  let index := if strStartsWith (components.headD "") "@" then 2 else 1
  nodeResolveLoop opts loadPkg components
    (loopIndices opts.checkNestedPackages index components.length) none

/-- `nodeResolve(importee)`: the `#`-subpath-import pre-step, run against the
self package imports map (empty mapping when absent, the JS `?? ` default),
falling through to the package loop when the matched import aliases another
package. `loadSelf` abstracts `loadSelfPackage`. -/
def nodeResolve (opts : ResolverOptions) (loadSelf : Option PackageLocation)
    (loadPkg : String → Option PackageLocation) (importee : String) : Option String :=
  if strStartsWith importee "#" then
    match loadSelf with
    | none => none
    | some self =>
      match matchModuleNode (self.info.imports.getD (.mapping [])) importee opts.constraints with
      | none => none
      | some matched =>
        if isLocal matched then some ("file://" ++ pathJoin self.resolved matched)
        else nodeResolveBody opts loadPkg matched
  else nodeResolveBody opts loadPkg importee

/- ### PathConfirmer and the public resolve (src/unnamed/part_001). -/

/-- Kind of a filesystem entry as reported by a successful `fs.statSync`. -/
inductive FKind where
  | file | dir | other
deriving DecidableEq

/-- The abstract synchronous filesystem probe: `statOrNull` from
`src/lib/helper.js` (a failing `statSync` yields `none`). -/
def FsStat := String → Option FKind

/-- `statIsFile` from `src/lib/helper.js`:
`statOrNull(p)?.isFile() ?? false`. -/
def statIsFile (stat : FsStat) (p : String) : Bool := stat p == some FKind.file

/-- `const zeroJsDefinitionsImport = ...` — the inert placeholder. -/
def zeroJsDefinitionsImport : String :=
  "data:text/javascript;charset=utf-8,/* was .d.ts only */"

/-- First path in the list that stats as a file (the suffix/index `for` loops
of `confirmPath`). -/
def firstExisting (stat : FsStat) : List String → Option String
  | [] => none
  | p :: rem => if statIsFile stat p then some p else firstExisting stat rem

/-- `pathname.replace(matchJsSuffixRegexp, '.d.ts')`: replace a final `.js`
by `.d.ts`, otherwise leave the path unchanged (regex without match). -/
def replaceJsSuffix (p : String) : String :=
  if strEndsWith p ".js" then p.dropRight 3 ++ ".d.ts" else p

/-- `const extToCheck = this.#options.matchNakedMjs ? ['.js', '.mjs'] : ['.js']`. -/
def extToCheck (opts : ResolverOptions) : List String :=
  if opts.matchNakedMjs then [".js", ".mjs"] else [".js"]

/-- `confirmPath(pathname)` from the source: an existing non-directory is
returned unchanged; a missing path is probed with the configured extension
list and then (under `rewritePeerTypes`) for sibling `.d.ts` declarations,
answering the inert placeholder; a directory is probed for index files and a
solo `index.d.ts`. -/
def confirmPath (stat : FsStat) (opts : ResolverOptions) (pathname : String) :
    Option String :=
  match stat pathname with
  | some k =>
    if k ≠ FKind.dir then some pathname
    else
      -- Look for index.js in the directory.
      match firstExisting stat
          ((extToCheck opts).map (fun ext => pathJoin pathname ("index" ++ ext))) with
      | some found => some found
      | none =>
        -- Look for a solo index.d.ts in the directory, which TypeScript allows.
        if opts.rewritePeerTypes && statIsFile stat (pathJoin pathname "index.d.ts") then
          some zeroJsDefinitionsImport
        else none
  | none =>
    -- Look for a file with a suffix.
    match firstExisting stat ((extToCheck opts).map (fun ext => pathname ++ ext)) with
    | some found => some found
    | none =>
      -- Special-case .d.ts files when there's no better option.
      if opts.rewritePeerTypes then
        if statIsFile stat (pathname ++ ".d.ts") || statIsFile stat (replaceJsSuffix pathname) then
          some zeroJsDefinitionsImport
        else none
      else none

/-- The URL record the source reads off a constructed `URL`. -/
structure URLRec where
  protocol : String
  pathname : String
  search : String
  hash : String

/-- The collaborator environment of the public `resolve` (spec §6): URL
parse/resolve (`none` models a throwing `new URL(...)`), `path.relative`
against the importer directory, the filesystem probe, and the package
locator. -/
structure ResolveEnv where
  parseURL : String → Option URLRec
  resolveRel : String → Option URLRec
  relative : String → String
  stat : FsStat
  loadSelf : Option PackageLocation
  loadPkg : String → Option PackageLocation

/-- Outcome of the public `resolve`: a thrown error or a normal return. -/
inductive ResolveOutcome where
  | err : String → ResolveOutcome
  | result : Option String → ResolveOutcome
deriving DecidableEq

/-- `relativeRegexp = /^\.{0,2}\//` as a test. -/
def startsRelative (s : String) : Bool :=
  strStartsWith s "/" || strStartsWith s "./" || strStartsWith s "../"

/-- The final relative-path formatting of `resolve`: `path.relative`, the
`./`-prefix guard, and the query/hash suffix. -/
def relOut (env : ResolveEnv) (pathname suffix : String) : String :=
  let out := env.relative pathname
  let out := if startsRelative out then out else "./" ++ out
  out ++ suffix

/-- The public `resolve(importee)` from the source: absolute URLs are ignored;
a `nodeResolve` result must be a `file:` URL (anything else is the one thrown
invariant violation — and an unparseable constructed URL also throws); with no
`nodeResolve` result the specifier is resolved against the importer directory
(`new URL(importee, importerDir)`, whose failure also throws); the path is
then confirmed against the filesystem and formatted. -/
def resolveTail (env : ResolveEnv) (opts : ResolverOptions) (url : URLRec) :
    ResolveOutcome :=
  let suffix := url.search ++ url.hash
  match confirmPath env.stat opts url.pathname with
  | some confirmed =>
    -- confirmPath might return a data: URL, so check here.
    match env.parseURL confirmed with
    | some _ => .result (some confirmed)
    | none => .result (some (relOut env confirmed suffix))
  | none =>
    if !opts.allowMissing then .result none
    else
      match env.parseURL url.pathname with
      | some _ => .result (some url.pathname)
      | none => .result (some (relOut env url.pathname suffix))

def resolve (env : ResolveEnv) (opts : ResolverOptions) (importee : String) :
    ResolveOutcome :=
  match env.parseURL importee with
  | some _ => .result none  -- ignore, is valid URL
  | none =>
    let urlRes : Except String URLRec :=
      match nodeResolve opts env.loadSelf env.loadPkg importee with
      | some resolved =>
        match env.parseURL resolved with
        | none => .error ("Invalid URL: " ++ resolved)
        | some u =>
          if u.protocol ≠ "file:" then .error ("expected file:, was: " ++ resolved)
          else .ok u
      | none =>
        match env.resolveRel importee with
        | none => .error ("Invalid URL: " ++ importee)
        | some u => .ok u
    match urlRes with
    | .error m => .err m
    | .ok url => resolveTail env opts url

/- ### Claim C1: exact vs. pattern subpath keys. -/

/-- The condition under which one subpath key of `matchModuleNodePath`'s scan
claims the requested subpath (exactly, or as a `/*` pattern with a
normal-form capture), written with the scan's own primitives. -/
def subpathKeyMatches (key rest : String) : Bool :=
  (strStartsWith key "#" || isLocal key) &&
    (key == rest ||
      (strEndsWith key "/*" &&
        (strStartsWith rest (key.dropRight 1) &&
          rest.length > (key.dropRight 1).length &&
            (pathNormalize (rest.drop (key.dropRight 1).length) ==
              rest.drop (key.dropRight 1).length))))

theorem matchEntries_skip_until_exact (rest : String) (child : ExportsNode) :
    ∀ (pre post : List (String × ExportsNode)),
      (strStartsWith rest "#" || isLocal rest) = true →
      (∀ kv ∈ pre, subpathKeyMatches kv.1 rest = false) →
      ∀ whole fb, matchEntries whole rest (pre ++ (rest, child) :: post) fb =
        ⟨some child, none⟩ := by
  intro pre
  induction pre with
  | nil =>
    intro post hrest _ whole fb
    rw [List.nil_append, matchEntries]
    have hguard : (!strStartsWith rest "#" && !isLocal rest) = false := by
      cases h1 : strStartsWith rest "#" <;> cases h2 : isLocal rest <;>
        simp_all
    rw [hguard]
    simp
  | cons kv pre ih =>
    intro post hrest hpre whole fb
    obtain ⟨k, v⟩ := kv
    have hk : subpathKeyMatches k rest = false := hpre (k, v) (by simp)
    have hrec : ∀ fb', matchEntries whole rest (pre ++ (rest, child) :: post) fb' =
        ⟨some child, none⟩ :=
      fun fb' => ih post hrest (fun kv h => hpre kv (by simp [h])) whole fb'
    rw [List.cons_append, matchEntries]
    by_cases hg : (strStartsWith k "#" || isLocal k) = true
    · -- k is scanned as a subpath key but does not match
      have hg' : (!strStartsWith k "#" && !isLocal k) = false := by
        cases h1 : strStartsWith k "#" <;> cases h2 : isLocal k <;> simp_all
      rw [hg']
      simp only [Bool.false_eq_true, if_false]
      simp only [subpathKeyMatches, hg, Bool.true_and] at hk
      have hne : (k == rest) = false := by
        cases h : (k == rest) <;> simp_all
      rw [hne]
      simp only [Bool.false_eq_true, if_false]
      by_cases hend : strEndsWith k "/*" = true
      · simp only [hend, Bool.true_and] at hk
        rw [hend]
        simp only [Bool.not_true, Bool.false_eq_true, if_false]
        by_cases hpat : (strStartsWith rest (k.dropRight 1) &&
            rest.length > (k.dropRight 1).length) = true
        · have hnorm : (pathNormalize (rest.drop (k.dropRight 1).length) ==
              rest.drop (k.dropRight 1).length) = false := by
            rcases Bool.and_eq_true .. |>.mp hpat with ⟨hp1, hp2⟩
            simp only [hp1, hp2] at hk
            have hk' := hk
            simp at hk'
            simpa using hk'.2
          rw [hpat]
          simp only [if_true]
          rw [hnorm]
          simp only [Bool.false_eq_true, if_false]
          exact hrec fb
        · rw [Bool.not_eq_true] at hpat
          rw [hpat]
          simp only [Bool.false_eq_true, if_false]
          exact hrec fb
      · rw [Bool.not_eq_true] at hend
        rw [hend]
        simp only [Bool.not_false, if_true]
        exact hrec fb
    · -- k looks like a condition key: it only records the fallback
      have hg' : (!strStartsWith k "#" && !isLocal k) = true := by
        cases h1 : strStartsWith k "#" <;> cases h2 : isLocal k <;> simp_all
      rw [hg']
      simp only [if_true]
      exact hrec true

/-- C1 (amended): in `matchModuleNodePath` the subpath keys are scanned in
declaration order and the first one that matches — exactly or as a pattern —
wins; consequently an exact key beats a pattern key exactly when no earlier
pattern key also matches the request. For every mapping whose keys before the
exact key do not themselves match the request, the exact key's child is
returned with no wildcard capture. -/
theorem c1_exact_wins_when_no_earlier_pattern_matches
    (pre post : List (String × ExportsNode)) (rest : String) (child : ExportsNode)
    (hrest : (strStartsWith rest "#" || isLocal rest) = true)
    (hpre : ∀ kv ∈ pre, subpathKeyMatches kv.1 rest = false) :
    (matchModuleNodePath (.mapping (pre ++ (rest, child) :: post)) rest).node =
        some child ∧
      (matchModuleNodePath (.mapping (pre ++ (rest, child) :: post)) rest).subpath =
        none := by
  rw [matchModuleNodePath]
  rw [matchEntries_skip_until_exact rest child pre post hrest hpre]
  exact ⟨rfl, rfl⟩

/-- C1 witness: a non-matching subpath key and a condition key may precede the
exact key; the exact key's child is then selected. -/
theorem c1_witness :
    (matchModuleNodePath
        (.mapping [("./z", .terminal "./zz.js"), ("browser", .terminal "./c.js"),
          ("./a/b", .terminal "./y")]) "./a/b").node = some (.terminal "./y") := by
  have h := c1_exact_wins_when_no_earlier_pattern_matches
    [("./z", ExportsNode.terminal "./zz.js"), ("browser", ExportsNode.terminal "./c.js")]
    [] "./a/b" (.terminal "./y") (by decide) (by decide)
  simpa using h.1

/-- C1 counterexample: the claim "the exact key wins regardless of which key
is declared first" fails — a pattern key `./a/*` declared before the exact
key `./a/b` captures the request `./a/b` first, so the result is the
pattern's target `./x/b`, not the exact key's target `./y`. -/
theorem c1_counterexample :
    matchModuleNode (.mapping [("./a/*", .terminal "./x/*"), ("./a/b", .terminal "./y")])
        "./a/b" [] = some "./x/b" ∧
      matchModuleNode (.mapping [("./a/*", .terminal "./x/*"), ("./a/b", .terminal "./y")])
        "./a/b" [] ≠ some "./y" := by
  exact ⟨by decide, by decide⟩

/- ### Claim C3: condition-key selection. -/

theorem firstCondMatch_append (cs : List String) (key : String) (child : ExportsNode)
    (post : List (String × ExportsNode)) :
    ∀ pre, (∀ kv ∈ pre, (alwaysConstraints.contains kv.1 || cs.contains kv.1) = false) →
      (alwaysConstraints.contains key || cs.contains key) = true →
      firstCondMatch cs (pre ++ (key, child) :: post) = some child := by
  intro pre
  induction pre with
  | nil =>
    intro _ hkey
    rw [List.nil_append, firstCondMatch, hkey]
    simp
  | cons kv pre ih =>
    intro hpre hkey
    obtain ⟨k, v⟩ := kv
    have hk : (alwaysConstraints.contains k || cs.contains k) = false := hpre (k, v) (by simp)
    rw [List.cons_append, firstCondMatch, hk]
    simp only [Bool.false_eq_true, if_false]
    exact ih (fun kv h => hpre kv (by simp [h])) hkey

theorem firstCondMatch_none (cs : List String) :
    ∀ entries, (∀ kv ∈ entries, (alwaysConstraints.contains kv.1 || cs.contains kv.1) = false) →
      firstCondMatch cs entries = none := by
  intro entries
  induction entries with
  | nil => intro _; rfl
  | cons kv rem ih =>
    intro h
    obtain ⟨k, v⟩ := kv
    have hk : (alwaysConstraints.contains k || cs.contains k) = false := h (k, v) (by simp)
    rw [firstCondMatch, hk]
    simp only [Bool.false_eq_true, if_false]
    exact ih (fun kv hm => h kv (by simp [hm]))

/-- C3: during condition selection, the traversal descends into the first key
in declaration order that is `import`, `module`, or a caller constraint
(precisely the source's `alwaysConstraints.includes(key) ||
constraints.includes(key)` test); if no key matches it descends into
`default`, and a missing `default` makes the resolution return none; `import`
and `module` are honored even when absent from the caller's constraints. -/
theorem c3_condition_selection (cs : List String) :
    (∀ pre key child post,
        (∀ kv ∈ pre, (alwaysConstraints.contains kv.1 || cs.contains kv.1) = false) →
        (alwaysConstraints.contains key || cs.contains key) = true →
        condDescend cs (.mapping (pre ++ (key, child) :: post)) = condDescend cs child) ∧
    (∀ entries,
        (∀ kv ∈ entries, (alwaysConstraints.contains kv.1 || cs.contains kv.1) = false) →
        condDescend cs (.mapping entries) =
          match lookupKey "default" entries with
          | some d => condDescend cs d
          | none => none) ∧
    (∀ child post, condDescend cs (.mapping (("import", child) :: post)) = condDescend cs child) ∧
    (∀ child post, condDescend cs (.mapping (("module", child) :: post)) = condDescend cs child) := by
  refine ⟨?_, ?_, ?_, ?_⟩
  · intro pre key child post hpre hkey
    rw [condDescend_mapping]
    rw [show condStep cs (pre ++ (key, child) :: post) = some child by
      unfold condStep
      rw [firstCondMatch_append cs key child post pre hpre hkey]]
  · intro entries hnone
    rw [condDescend_mapping]
    unfold condStep
    rw [firstCondMatch_none cs entries hnone]
  · intro child post
    rw [condDescend_mapping]
    rw [show condStep cs (("import", child) :: post) = some child by
      unfold condStep
      rw [firstCondMatch]
      rw [show (alwaysConstraints.contains "import" || cs.contains "import") = true by
        simp [alwaysConstraints]]
      simp]
  · intro child post
    rw [condDescend_mapping]
    rw [show condStep cs (("module", child) :: post) = some child by
      unfold condStep
      rw [firstCondMatch]
      rw [show (alwaysConstraints.contains "module" || cs.contains "module") = true by
        simp [alwaysConstraints]]
      simp]

/-- C3 witness: with constraints `["browser"]`, a `node` key is skipped, the
`browser` key is selected; with no constraints, `import` is honored anyway and
a map of unknown keys without `default` yields none. -/
theorem c3_witness :
    condDescend ["browser"] (.mapping [("node", .terminal "N"), ("browser", .terminal "B")]) =
        some "B" ∧
      condDescend [] (.mapping [("import", .terminal "I")]) = some "I" ∧
      condDescend [] (.mapping [("weird", .terminal "W")]) = none := by
  refine ⟨?_, ?_, ?_⟩
  · have h := (c3_condition_selection ["browser"]).1 [("node", ExportsNode.terminal "N")]
      "browser" (ExportsNode.terminal "B") [] (by decide) (by decide)
    simpa using h
  · have h := (c3_condition_selection []).2.2.1 (ExportsNode.terminal "I") []
    simpa using h
  · have h := (c3_condition_selection []).2.1 [("weird", ExportsNode.terminal "W")] (by decide)
    simpa using h

/- ### Claim C2: pattern-capture normalization. -/

/-- C2: the capture check is exactly "re-normalizing yields the identical
string" — but that does *not* reject every capture containing `..`: a capture
made of leading `..` segments is already in normal form under Node's
`path.normalize`, so it matches, letting the request escape the exported
subtree. Here the single pattern `./foo/*` matches the request
`./foo/../escape` with capture `../escape` (whose normalization is itself),
and the resolver yields `./bar/../escape`. -/
theorem c2_escape_capture_matches :
    (matchModuleNodePath (.mapping [("./foo/*", .terminal "./bar/*")])
        "./foo/../escape").subpath = some "../escape" ∧
      pathNormalize "../escape" = "../escape" ∧
      matchModuleNode (.mapping [("./foo/*", .terminal "./bar/*")])
        "./foo/../escape" [] = some "./bar/../escape" ∧
      isLocal "./bar/../escape" = true := by
  exact ⟨by decide, by decide, by decide, by decide⟩

/- ### Claim C6: wildcard substitution. -/

theorem expandRepl_no_dollar (before after : List Char) :
    ∀ sub : List Char, '$' ∉ sub → expandRepl before after sub = sub := by
  intro sub
  induction sub with
  | nil => intro _; rfl
  | cons c rem ih =>
    intro h
    have hc : ¬(c = '$') := fun he => h (by simp [he])
    have hr : expandRepl before after rem = rem := ih (fun hm => h (by simp [hm]))
    cases rem with
    | nil => simp [expandRepl, hc]
    | cons d rem2 => simp [expandRepl, hc, hr]

theorem replaceStarAux_star_free (sub : List Char) :
    ∀ (l : List Char), '*' ∉ l → ∀ seen rest,
      replaceStarAux sub seen (l ++ rest) =
        l ++ replaceStarAux sub (l.reverse ++ seen) rest := by
  intro l
  induction l with
  | nil => intro _ seen rest; simp
  | cons c l ih =>
    intro h seen rest
    have hc : ¬(c = '*') := fun he => h (by simp [he])
    rw [List.cons_append, replaceStarAux, if_neg hc]
    rw [ih (fun hm => h (by simp [hm])) (c :: seen) rest]
    simp

theorem replaceStarAux_star (sub seen rest : List Char) :
    replaceStarAux sub seen ('*' :: rest) =
      expandRepl seen.reverse rest sub ++ replaceStarAux sub ('*' :: seen) rest := by
  rw [replaceStarAux, if_pos rfl]

theorem replaceStarAux_no_star (sub : List Char) (l : List Char) (h : '*' ∉ l)
    (seen : List Char) : replaceStarAux sub seen l = l := by
  have := replaceStarAux_star_free sub l h seen []
  simpa [replaceStarAux] using this

/-- C6 (amended): when a terminal string is reached with a recorded wildcard
capture, every literal `*` occurrence — not only the first — is replaced by
the JS replacement-expansion of the captured remainder; when the capture
contains no `$` (so no `$$`/`$&`-style escape applies) that expansion is the
capture itself, and every `*` is replaced by the captured remainder verbatim.
Stated for a terminal containing two `*` occurrences separated by star-free
stretches: both are replaced by the capture. -/
theorem c6_wildcard_replaces_every_star (exports : ExportsNode) (rest : String)
    (cs : List String) (n : ExportsNode) (sub s a b c : String)
    (h1 : (matchModuleNodePath exports rest).node = some n)
    (h2 : (matchModuleNodePath exports rest).subpath = some sub)
    (h3 : (sub == "") = false)
    (hd : '$' ∉ sub.data)
    (h4 : condDescend cs n = some s)
    (h5 : s.data = a.data ++ '*' :: (b.data ++ '*' :: c.data))
    (h6 : '*' ∉ a.data) (h7 : '*' ∉ b.data) (h8 : '*' ∉ c.data) :
    matchModuleNode exports rest cs =
      some ⟨a.data ++ (sub.data ++ (b.data ++ (sub.data ++ c.data)))⟩ := by
  have hs : (s == "") = false := by
    cases hx : (s == "") with
    | false => rfl
    | true =>
      exfalso
      have hse : s = "" := by simpa using hx
      rw [hse] at h5
      simp at h5
  have hrepl : replaceStar sub s =
      ⟨a.data ++ (sub.data ++ (b.data ++ (sub.data ++ c.data)))⟩ := by
    unfold replaceStar
    rw [h5]
    rw [replaceStarAux_star_free sub.data a.data h6 [] ('*' :: (b.data ++ '*' :: c.data))]
    rw [replaceStarAux_star sub.data (a.data.reverse ++ []) (b.data ++ '*' :: c.data)]
    rw [expandRepl_no_dollar _ _ sub.data hd]
    rw [replaceStarAux_star_free sub.data b.data h7 ('*' :: (a.data.reverse ++ []))
      ('*' :: c.data)]
    rw [replaceStarAux_star sub.data _ c.data]
    rw [expandRepl_no_dollar _ _ sub.data hd]
    rw [replaceStarAux_no_star sub.data c.data h8 _]
  simp only [matchModuleNode, h1, h2, h4, hs, h3]
  simp only [Bool.false_eq_true, if_false]
  rw [hrepl]

/-- C6 witness: pattern `./a/*` with request `./a/q` captures `q` (dollar
free); the terminal `./lib/*/dist/*.js` has both stars replaced, yielding
`./lib/q/dist/q.js`. -/
theorem c6_witness :
    matchModuleNode (.mapping [("./a/*", .terminal "./lib/*/dist/*.js")]) "./a/q" [] =
      some ⟨"./lib/".data ++ ("q".data ++ ("/dist/".data ++ ("q".data ++ ".js".data)))⟩ := by
  exact c6_wildcard_replaces_every_star (.mapping [("./a/*", .terminal "./lib/*/dist/*.js")])
    "./a/q" [] (.terminal "./lib/*/dist/*.js") "q" "./lib/*/dist/*.js" "./lib/" "/dist/" ".js"
    rfl rfl rfl (by decide) rfl rfl (by decide) (by decide) (by decide)

/-- C6 counterexample: the claim as stated — every `*` is replaced by the
captured remainder — fails, because JS `String.prototype.replace` interprets
`$`-escapes in a string replacement. The capture `$&` is reachable (it is a
fixed point of `path.normalize`), and `$&` expands to the matched `*` itself,
so the pattern `./a/*` applied to `./a/$&` over terminal `./x/*` returns
`./x/*` — the star is left in place instead of becoming `./x/$&`. -/
theorem c6_counterexample :
    (matchModuleNodePath (.mapping [("./a/*", .terminal "./x/*")]) "./a/$&").subpath =
        some "$&" ∧
      matchModuleNode (.mapping [("./a/*", .terminal "./x/*")]) "./a/$&" [] =
        some "./x/*" ∧
      matchModuleNode (.mapping [("./a/*", .terminal "./x/*")]) "./a/$&" [] ≠
        some "./x/$&" := by
  exact ⟨by decide, by decide, by decide⟩
/- ### Claims C4 and C5: the package loop on one- and two-segment specifiers. -/

theorem strData_append (a b : String) : (a ++ b).data = a.data ++ b.data := rfl

theorem dotSlash_ne_dot (t : String) : (("./" ++ t) == ".") = false := by
  rw [beq_eq_false_iff_ne]
  intro h
  have hd : ("./" ++ t).data = ".".data := congrArg String.data h
  rw [strData_append] at hd
  simp at hd

/-- A one-segment bare specifier visits the loop exactly once, at prefix
length 1. -/
theorem nodeResolve_single (opts : ResolverOptions) (loadSelf : Option PackageLocation)
    (loadPkg : String → Option PackageLocation) (name : String)
    (hsplit : strSplitSlash name = [name])
    (hat : strStartsWith name "@" = false)
    (hhash : strStartsWith name "#" = false) :
    nodeResolve opts loadSelf loadPkg name =
      match nodeResolveIter opts loadPkg [name] 1 none with
      | .ret r => r
      | .cont fb => fb := by
  unfold nodeResolve
  simp only [hhash, Bool.false_eq_true, if_false]
  unfold nodeResolveBody
  rw [hsplit]
  simp only [List.headD_cons, hat, Bool.false_eq_true, if_false, List.length_cons,
    List.length_nil]
  unfold loopIndices
  rw [show List.range' (1 + 1) (0 + 1 - 1) = [] from rfl]
  simp only [ite_self]
  simp only [nodeResolveLoop]

/-- A two-segment non-scoped specifier visits the loop at prefix length 1 and
then — only under `checkNestedPackages` — at prefix length 2. -/
theorem nodeResolve_double (opts : ResolverOptions) (loadSelf : Option PackageLocation)
    (loadPkg : String → Option PackageLocation) (name c2 : String)
    (hsplit : strSplitSlash (name ++ "/" ++ c2) = [name, c2])
    (hat : strStartsWith name "@" = false)
    (hhash : strStartsWith (name ++ "/" ++ c2) "#" = false) :
    nodeResolve opts loadSelf loadPkg (name ++ "/" ++ c2) =
      nodeResolveLoop opts loadPkg [name, c2]
        (1 :: (if opts.checkNestedPackages then [2] else [])) none := by
  unfold nodeResolve
  rw [hhash]
  simp only [Bool.false_eq_true, if_false]
  unfold nodeResolveBody
  rw [hsplit]
  simp only [List.headD_cons, hat, Bool.false_eq_true, if_false]
  unfold loopIndices
  rw [show List.range' (1 + 1) ([name, c2].length - 1) = [2] from rfl]

/-- One loop pass over a package whose (truthy) `exports` map yields no local
terminal: everything now hinges on `allowExportFallback`. -/
theorem iter_exports_no_local (opts : ResolverOptions)
    (loadPkg : String → Option PackageLocation) (comps : List String) (idx : Nat)
    (fb : Option String) (pkg : PackageLocation) (es : List (String × ExportsNode))
    (hload : loadPkg (String.intercalate "/" (comps.take idx)) = some pkg)
    (hex : pkg.info.exports = some (.mapping es))
    (hmatch : matchModuleNode (.mapping es)
        (String.intercalate "/" ("." :: comps.drop idx)) opts.constraints = none ∨
      ∃ m, matchModuleNode (.mapping es)
          (String.intercalate "/" ("." :: comps.drop idx)) opts.constraints = some m ∧
        isLocal m = false) :
    nodeResolveIter opts loadPkg comps idx fb =
      if opts.allowExportFallback then
        afterExports opts pkg (String.intercalate "/" ("." :: comps.drop idx)) fb
      else .ret none := by
  simp only [nodeResolveIter]
  rw [hload]
  simp only [hex, nodeTruthy]
  rcases hmatch with hnone | ⟨m, hm, hlocal⟩
  · rw [hnone]
    cases opts.allowExportFallback <;> simp
  · rw [hm]
    simp only [hlocal, Bool.false_eq_true, if_false]
    cases opts.allowExportFallback <;> simp

/-- C4: with a manifest declaring an `exports` map and a request that yields
no local terminal, the outcome forks exactly on `allowExportFallback`: when it
is false the resolution returns none (both for a root import and for a
subpath), when it is true the resolution continues to the legacy entry fields
(root import) or to the literal path under the package (subpath import). -/
theorem c4_allowExportFallback_fork (opts : ResolverOptions)
    (loadSelf : Option PackageLocation) (loadPkg : String → Option PackageLocation)
    (name c2 : String) (pkg : PackageLocation) (es : List (String × ExportsNode))
    (hsplit1 : strSplitSlash name = [name])
    (hsplit2 : strSplitSlash (name ++ "/" ++ c2) = [name, c2])
    (hat : strStartsWith name "@" = false)
    (hhash : strStartsWith name "#" = false)
    (hhash2 : strStartsWith (name ++ "/" ++ c2) "#" = false)
    (hload : loadPkg name = some pkg)
    (hex : pkg.info.exports = some (.mapping es))
    (hmatchRoot : matchModuleNode (.mapping es) "." opts.constraints = none ∨
      ∃ m, matchModuleNode (.mapping es) "." opts.constraints = some m ∧ isLocal m = false)
    (hmatchSub : matchModuleNode (.mapping es) ("./" ++ c2) opts.constraints = none ∨
      ∃ m, matchModuleNode (.mapping es) ("./" ++ c2) opts.constraints = some m ∧
        isLocal m = false)
    (hnested : opts.checkNestedPackages = true → loadPkg (name ++ "/" ++ c2) = none) :
    (opts.allowExportFallback = false →
      nodeResolve opts loadSelf loadPkg name = none ∧
      nodeResolve opts loadSelf loadPkg (name ++ "/" ++ c2) = none) ∧
    (opts.allowExportFallback = true →
      nodeResolve opts loadSelf loadPkg name =
        some ("file://" ++ pathJoin pkg.resolved (legacyMain opts pkg.info)) ∧
      nodeResolve opts loadSelf loadPkg (name ++ "/" ++ c2) =
        some ("file://" ++ pathJoin pkg.resolved ("./" ++ c2))) := by
  have hiter1 : nodeResolveIter opts loadPkg [name] 1 none =
      if opts.allowExportFallback then
        afterExports opts pkg (String.intercalate "/" ("." :: List.drop 1 [name])) none
      else .ret none :=
    iter_exports_no_local opts loadPkg [name] 1 none pkg es hload hex hmatchRoot
  have hiter2 : nodeResolveIter opts loadPkg [name, c2] 1 none =
      if opts.allowExportFallback then
        afterExports opts pkg (String.intercalate "/" ("." :: List.drop 1 [name, c2])) none
      else .ret none :=
    iter_exports_no_local opts loadPkg [name, c2] 1 none pkg es hload hex hmatchSub
  constructor
  · intro hoff
    rw [hoff] at hiter1 hiter2
    simp only [Bool.false_eq_true, if_false] at hiter1 hiter2
    constructor
    · rw [nodeResolve_single opts loadSelf loadPkg name hsplit1 hat hhash, hiter1]
    · rw [nodeResolve_double opts loadSelf loadPkg name c2 hsplit2 hat hhash2]
      rw [nodeResolveLoop, hiter2]
  · intro hon
    rw [hon] at hiter1 hiter2
    simp only [if_true] at hiter1 hiter2
    constructor
    · rw [nodeResolve_single opts loadSelf loadPkg name hsplit1 hat hhash, hiter1]
      rw [show afterExports opts pkg (String.intercalate "/" ("." :: List.drop 1 [name])) none =
          .ret (some ("file://" ++ pathJoin pkg.resolved (legacyMain opts pkg.info))) by
        simp only [afterExports]
        rw [show (String.intercalate "/" ("." :: List.drop 1 [name]) == ".") = true from rfl]
        simp]
    · rw [nodeResolve_double opts loadSelf loadPkg name c2 hsplit2 hat hhash2]
      rw [nodeResolveLoop, hiter2]
      rw [show afterExports opts pkg (String.intercalate "/" ("." :: List.drop 1 [name, c2])) none =
          .cont (some ("file://" ++ pathJoin pkg.resolved ("./" ++ c2))) by
        simp only [afterExports]
        rw [show String.intercalate "/" ("." :: List.drop 1 [name, c2]) = "./" ++ c2 from rfl]
        rw [dotSlash_ne_dot c2]
        simp]
      cases hcn : opts.checkNestedPackages with
      | false =>
        simp only [Bool.false_eq_true, if_false]
        rw [nodeResolveLoop]
      | true =>
        simp only [if_true]
        rw [nodeResolveLoop]
        rw [show nodeResolveIter opts loadPkg [name, c2] 2
            (some ("file://" ++ pathJoin pkg.resolved ("./" ++ c2))) =
            .cont (some ("file://" ++ pathJoin pkg.resolved ("./" ++ c2))) by
          simp only [nodeResolveIter]
          rw [show String.intercalate "/" (List.take 2 [name, c2]) = name ++ "/" ++ c2 from rfl]
          rw [hnested hcn]]
        simp only [nodeResolveLoop]

/-- `const defaults = {...}` from the source (src/unnamed/part_001):
constraints `['browser']`, allowMissing false, rewritePeerTypes true,
allowExportFallback true, matchNakedMjs false, includeMainFallback true,
checkNestedPackages true. -/
def defaults : ResolverOptions := ⟨["browser"], false, true, true, false, true, true⟩

/-- A sample located package used by witnesses: it declares an `exports` map
whose only key is an unknown condition, plus a legacy `module` field. -/
def witnessPkg : PackageLocation :=
  ⟨"/n/pkg", ⟨[("module", .str "./m.js")], some (.mapping [("weird", .terminal "./w.js")]), none⟩⟩

/-- A sample package-locating collaborator knowing only `pkg`. -/
def witnessLoadPkg : String → Option PackageLocation :=
  fun s => if s == "pkg" then some witnessPkg else none

/-- C4 witness: with the fallback enabled, `pkg` resolves through the legacy
`module` field and `pkg/sub` through the literal path; with it disabled both
resolutions return none. -/
theorem c4_witness :
    nodeResolve defaults none witnessLoadPkg "pkg" = some "file:///n/pkg/m.js" ∧
    nodeResolve defaults none witnessLoadPkg "pkg/sub" = some "file:///n/pkg/sub" ∧
    nodeResolve ⟨["browser"], false, true, false, false, true, true⟩ none witnessLoadPkg
      "pkg" = none ∧
    nodeResolve ⟨["browser"], false, true, false, false, true, true⟩ none witnessLoadPkg
      "pkg/sub" = none := by
  have h1 := c4_allowExportFallback_fork defaults none witnessLoadPkg "pkg" "sub"
    witnessPkg [("weird", ExportsNode.terminal "./w.js")]
    (by decide) (by decide) (by decide) (by decide) (by decide) rfl rfl
    (Or.inl (by decide)) (Or.inl (by decide)) (fun _ => rfl)
  have h2 := c4_allowExportFallback_fork ⟨["browser"], false, true, false, false, true, true⟩
    none witnessLoadPkg "pkg" "sub"
    witnessPkg [("weird", ExportsNode.terminal "./w.js")]
    (by decide) (by decide) (by decide) (by decide) (by decide) rfl rfl
    (Or.inl (by decide)) (Or.inl (by decide)) (fun _ => rfl)
  refine ⟨(h1.2 rfl).1.trans (by decide), (h1.2 rfl).2.trans (by decide),
    (h2.1 rfl).1, (h2.1 rfl).2⟩

/- ### Claim C5: legacy entry-field priority at the package root. -/

theorem firstStringField_append (info : PackageInfo) (k : String) (s : String)
    (post : List String) :
    ∀ pre, (∀ k' ∈ pre, info.getStr k' = none) → info.getStr k = some s →
      firstStringField info (pre ++ k :: post) = some s := by
  intro pre
  induction pre with
  | nil =>
    intro _ hk
    rw [List.nil_append, firstStringField, hk]
  | cons k' pre ih =>
    intro hpre hk
    have h' : info.getStr k' = none := hpre k' (by simp)
    rw [List.cons_append, firstStringField, h']
    exact ih (fun x hx => hpre x (by simp [hx])) hk

theorem firstStringField_none (info : PackageInfo) :
    ∀ l, (∀ k ∈ l, info.getStr k = none) → firstStringField info l = none := by
  intro l
  induction l with
  | nil => intro _; rfl
  | cons k rem ih =>
    intro h
    have hk : info.getStr k = none := h k (by simp)
    rw [firstStringField, hk]
    exact ih (fun x hx => h x (by simp [hx]))

/-- One loop pass over a package with no `exports` at the package root: the
legacy entry selection decides the result. -/
theorem iter_legacy_root (opts : ResolverOptions)
    (loadPkg : String → Option PackageLocation) (comps : List String) (idx : Nat)
    (fb : Option String) (pkg : PackageLocation)
    (hload : loadPkg (String.intercalate "/" (comps.take idx)) = some pkg)
    (hex : pkg.info.exports = none)
    (hroot : (String.intercalate "/" ("." :: comps.drop idx) == ".") = true) :
    nodeResolveIter opts loadPkg comps idx fb =
      .ret (some ("file://" ++ pathJoin pkg.resolved
        (legacyMain opts pkg.info))) := by
  simp only [nodeResolveIter]
  rw [hload]
  simp only [hex, afterExports, hroot, if_true]

/-- A root import of a one-segment package without `exports` resolves to the
legacy entry selection. -/
theorem nodeResolve_legacy_root (opts : ResolverOptions)
    (loadSelf : Option PackageLocation) (loadPkg : String → Option PackageLocation)
    (name : String) (pkg : PackageLocation)
    (hsplit : strSplitSlash name = [name])
    (hat : strStartsWith name "@" = false)
    (hhash : strStartsWith name "#" = false)
    (hload : loadPkg name = some pkg)
    (hex : pkg.info.exports = none) :
    nodeResolve opts loadSelf loadPkg name =
      some ("file://" ++ pathJoin pkg.resolved (legacyMain opts pkg.info)) := by
  rw [nodeResolve_single opts loadSelf loadPkg name hsplit hat hhash]
  rw [iter_legacy_root opts loadPkg [name] 1 none pkg hload hex rfl]

/-- C5: for a package-root import reaching the legacy fallback, the entry
fields are probed in the fixed order `module, esnext:main, esnext,
jsnext:main, jsnext` and the first string-valued one wins; `main` is used only
when all five are absent, and then exactly when `includeMainFallback` is set
or the manifest declares `"type": "module"`. -/
theorem c5_legacy_field_order (opts : ResolverOptions)
    (loadSelf : Option PackageLocation) (loadPkg : String → Option PackageLocation)
    (name : String) (pkg : PackageLocation)
    (hsplit : strSplitSlash name = [name])
    (hat : strStartsWith name "@" = false)
    (hhash : strStartsWith name "#" = false)
    (hload : loadPkg name = some pkg)
    (hex : pkg.info.exports = none) :
    (∀ pre k post s, modulePackageNames = pre ++ k :: post →
      (∀ k' ∈ pre, pkg.info.getStr k' = none) →
      pkg.info.getStr k = some s →
      nodeResolve opts loadSelf loadPkg name =
        some ("file://" ++ pathJoin pkg.resolved s)) ∧
    ((∀ k ∈ modulePackageNames, pkg.info.getStr k = none) →
      (∀ m, pkg.info.getStr "main" = some m →
        (opts.includeMainFallback = true ∨ pkg.info.getStr "type" = some "module") →
        nodeResolve opts loadSelf loadPkg name =
          some ("file://" ++ pathJoin pkg.resolved m)) ∧
      (opts.includeMainFallback = false → pkg.info.getStr "type" ≠ some "module" →
        nodeResolve opts loadSelf loadPkg name =
          some ("file://" ++ pathJoin pkg.resolved "."))) := by
  have hbase := nodeResolve_legacy_root opts loadSelf loadPkg name pkg hsplit hat hhash
    hload hex
  constructor
  · intro pre k post s hdecomp hpre hk
    rw [hbase]
    rw [show legacyMain opts pkg.info = s by
      unfold legacyMain
      rw [hdecomp, firstStringField_append pkg.info k s post pre hpre hk]]
  · intro hnone
    have hfsf : firstStringField pkg.info modulePackageNames = none :=
      firstStringField_none pkg.info modulePackageNames hnone
    constructor
    · intro m hm hcond
      rw [hbase]
      rw [show legacyMain opts pkg.info = m by
        unfold legacyMain
        rw [hfsf, hm]
        rcases hcond with h | h
        · simp [h]
        · simp [h]]
    · intro hmain htype
      rw [hbase]
      rw [show legacyMain opts pkg.info = "." by
        unfold legacyMain
        rw [hfsf, hmain]
        have : (pkg.info.getStr "type" == some "module") = false :=
          beq_eq_false_iff_ne.mpr htype
        rw [this]
        simp]

/-- C5 witness: `esnext` beats a later `jsnext` and an ignored `main`; with
all five fields absent, `main` is used when `includeMainFallback` is set, and
skipped (yielding the package root `.`) when it is unset on a package not
typed `module`. -/
theorem c5_witness :
    nodeResolve defaults none
      (fun s => if s == "p" then
        some ⟨"/n/p", ⟨[("esnext", .str "./e.js"), ("jsnext", .str "./j.js"),
          ("main", .str "./m.js")], none, none⟩⟩ else none) "p" =
      some "file:///n/p/e.js" ∧
    nodeResolve defaults none
      (fun s => if s == "p" then
        some ⟨"/n/p", ⟨[("main", .str "./m.js")], none, none⟩⟩ else none) "p" =
      some "file:///n/p/m.js" ∧
    nodeResolve ⟨["browser"], false, true, true, false, false, true⟩ none
      (fun s => if s == "p" then
        some ⟨"/n/p", ⟨[("main", .str "./m.js")], none, none⟩⟩ else none) "p" =
      some "file:///n/p" := by
  refine ⟨?_, ?_, ?_⟩
  · have h := (c5_legacy_field_order defaults none
      (fun s => if s == "p" then
        some ⟨"/n/p", ⟨[("esnext", .str "./e.js"), ("jsnext", .str "./j.js"),
          ("main", .str "./m.js")], none, none⟩⟩ else none) "p"
      ⟨"/n/p", ⟨[("esnext", .str "./e.js"), ("jsnext", .str "./j.js"),
        ("main", .str "./m.js")], none, none⟩⟩
      (by decide) (by decide) (by decide) rfl rfl).1
      ["module", "esnext:main"] "esnext" ["jsnext:main", "jsnext"] "./e.js"
      (by decide) (by decide) rfl
    exact h.trans (by decide)
  · have h := ((c5_legacy_field_order defaults none
      (fun s => if s == "p" then
        some ⟨"/n/p", ⟨[("main", .str "./m.js")], none, none⟩⟩ else none) "p"
      ⟨"/n/p", ⟨[("main", .str "./m.js")], none, none⟩⟩
      (by decide) (by decide) (by decide) rfl rfl).2
      (by decide)).1 "./m.js" rfl (Or.inl rfl)
    exact h.trans (by decide)
  · have h := ((c5_legacy_field_order ⟨["browser"], false, true, true, false, false, true⟩
      none
      (fun s => if s == "p" then
        some ⟨"/n/p", ⟨[("main", .str "./m.js")], none, none⟩⟩ else none) "p"
      ⟨"/n/p", ⟨[("main", .str "./m.js")], none, none⟩⟩
      (by decide) (by decide) (by decide) rfl rfl).2
      (by decide)).2 rfl (by decide)
    exact h.trans (by decide)

/- ### Claims C7 and C8: the public resolve contract. -/

/-- After a URL has been constructed, the remaining filesystem confirmation
and formatting always produce a normal return, never a thrown error. -/
theorem resolveTail_result (env : ResolveEnv) (opts : ResolverOptions) (url : URLRec) :
    ∃ x, resolveTail env opts url = ResolveOutcome.result x := by
  unfold resolveTail
  split
  · split
    · exact ⟨_, rfl⟩
    · exact ⟨_, rfl⟩
  · split
    · exact ⟨_, rfl⟩
    · split
      · exact ⟨_, rfl⟩
      · exact ⟨_, rfl⟩

/-- C7 (amended): when `nodeResolve` yields a result parsing to a non-`file:`
scheme, `resolve` raises the invariant-violation error — never swallowed or
turned into an absent result. A `file:`-scheme result, and the no-result path
when the specifier does resolve against the importer's base, both end in a
normal (possibly absent) return. The original claim's "every other negative
outcome is returned, never thrown" does not hold unconditionally: it needs the
relative URL resolution to succeed, see `c7_counterexample`. -/
theorem c7_scheme_violation_raises (env : ResolveEnv) (opts : ResolverOptions)
    (importee : String) :
    (∀ r u, env.parseURL importee = none →
      nodeResolve opts env.loadSelf env.loadPkg importee = some r →
      env.parseURL r = some u → u.protocol ≠ "file:" →
      resolve env opts importee = .err ("expected file:, was: " ++ r)) ∧
    (∀ r u, env.parseURL importee = none →
      nodeResolve opts env.loadSelf env.loadPkg importee = some r →
      env.parseURL r = some u → u.protocol = "file:" →
      ∃ x, resolve env opts importee = .result x) ∧
    (∀ u, env.parseURL importee = none →
      nodeResolve opts env.loadSelf env.loadPkg importee = none →
      env.resolveRel importee = some u →
      ∃ x, resolve env opts importee = .result x) := by
  refine ⟨?_, ?_, ?_⟩
  · intro r u hpu hnr hpr hproto
    unfold resolve
    rw [hpu]
    simp only [hnr, hpr]
    rw [if_pos hproto]
  · intro r u hpu hnr hpr hproto
    unfold resolve
    rw [hpu]
    simp only [hnr, hpr]
    rw [if_neg (by simp [hproto])]
    exact resolveTail_result env opts u
  · intro u hpu hnr hrel
    unfold resolve
    rw [hpu]
    simp only [hnr, hrel]
    exact resolveTail_result env opts u

/-- C7 witness: a crafted collaborator environment whose URL parser assigns a
non-`file:` scheme to the located package's terminal makes `resolve` throw;
flipping the scheme to `file:` gives a normal return. -/
theorem c7_witness :
    resolve
      ⟨fun s => if s == "file:///n/pkg/m.js" then some ⟨"odd:", "/n/pkg/m.js", "", ""⟩
          else none,
        fun _ => none, fun p => p, fun _ => none, none, witnessLoadPkg⟩
      defaults "pkg" = .err ("expected file:, was: " ++ "file:///n/pkg/m.js") ∧
    ∃ x, resolve
      ⟨fun s => if s == "file:///n/pkg/m.js" then some ⟨"file:", "/n/pkg/m.js", "", ""⟩
          else none,
        fun _ => none, fun p => p, fun _ => none, none, witnessLoadPkg⟩
      defaults "pkg" = .result x := by
  constructor
  · exact (c7_scheme_violation_raises
      ⟨fun s => if s == "file:///n/pkg/m.js" then some ⟨"odd:", "/n/pkg/m.js", "", ""⟩
          else none,
        fun _ => none, fun p => p, fun _ => none, none, witnessLoadPkg⟩
      defaults "pkg").1 "file:///n/pkg/m.js" ⟨"odd:", "/n/pkg/m.js", "", ""⟩
      rfl (by decide) rfl (by decide)
  · exact (c7_scheme_violation_raises
      ⟨fun s => if s == "file:///n/pkg/m.js" then some ⟨"file:", "/n/pkg/m.js", "", ""⟩
          else none,
        fun _ => none, fun p => p, fun _ => none, none, witnessLoadPkg⟩
      defaults "pkg").2.1 "file:///n/pkg/m.js" ⟨"file:", "/n/pkg/m.js", "", ""⟩
      rfl (by decide) rfl rfl

/-- C7 counterexample: the claim's second half — "every other negative outcome
is returned as an explicit absent result, never thrown" — fails. A specifier
like `https://` is not a well-formed absolute URL (so it is not ignored),
`nodeResolve` finds nothing, and the relative URL construction against the
base of the importer also fails, so `resolve` propagates a URL error and not
returning an absent result. -/
theorem c7_counterexample :
    resolve ⟨fun _ => none, fun _ => none, fun p => p, fun _ => none, none, fun _ => none⟩
      defaults "https://" = .err ("Invalid URL: " ++ "https://") := by decide

/-- C8: a specifier that parses as a well-formed absolute URL makes `resolve`
return none. -/
theorem c8_absolute_url_none (env : ResolveEnv) (opts : ResolverOptions)
    (importee : String) (u : URLRec) (h : env.parseURL importee = some u) :
    resolve env opts importee = .result none := by
  unfold resolve
  rw [h]

/-- C8 witness. -/
theorem c8_witness :
    resolve
      ⟨fun s => if s == "https://x/" then some ⟨"https:", "/", "", ""⟩ else none,
        fun _ => none, fun p => p, fun _ => none, none, fun _ => none⟩
      defaults "https://x/" = .result none :=
  c8_absolute_url_none _ defaults "https://x/" ⟨"https:", "/", "", ""⟩ rfl

/- ### Claims C9 and C10: path confirmation. -/

theorem firstExisting_isFile (stat : FsStat) :
    ∀ l f, firstExisting stat l = some f → statIsFile stat f = true := by
  intro l
  induction l with
  | nil => intro f h; simp [firstExisting] at h
  | cons p rem ih =>
    intro f h
    rw [firstExisting] at h
    by_cases hp : statIsFile stat p = true
    · rw [if_pos hp] at h
      rwa [← Option.some.inj h]
    · rw [if_neg hp] at h
      exact ih f h

theorem mem_of_getLast?_eq : ∀ (l : List Char) (c : Char), l.getLast? = some c → c ∈ l := by
  intro l
  induction l with
  | nil => intro c h; simp at h
  | cons x rem ih =>
    intro c h
    cases rem with
    | nil => simp at h; simp [h]
    | cons y ys =>
      rw [List.getLast?_cons_cons] at h
      exact List.mem_cons_of_mem x (ih c h)

theorem getLast?_ne_slash (l : List Char) (h : '/' ∉ l) : l.getLast? ≠ some '/' :=
  fun he => h (mem_of_getLast?_eq l '/' he)

theorem splitSlashAux_no_slash :
    ∀ (b : List Char), '/' ∉ b → ∀ cur, splitSlashAux b cur = [cur.reverse ++ b] := by
  intro b
  induction b with
  | nil => intro _ cur; simp [splitSlashAux]
  | cons c rem ih =>
    intro hb cur
    have hc : ¬(c = '/') := fun he => hb (by simp [he])
    rw [splitSlashAux, if_neg hc]
    rw [ih (fun hm => hb (by simp [hm])) (c :: cur)]
    simp

theorem splitSlashAux_last (b : List Char) (hb : '/' ∉ b) :
    ∀ (a : List Char) (cur : List Char),
      ∃ init, splitSlashAux (a ++ '/' :: b) cur = init ++ [b] := by
  intro a
  induction a with
  | nil =>
    intro cur
    rw [List.nil_append, splitSlashAux, if_pos rfl]
    rw [splitSlashAux_no_slash b hb []]
    exact ⟨[cur.reverse], by simp⟩
  | cons c a ih =>
    intro cur
    rw [List.cons_append, splitSlashAux]
    by_cases hc : c = '/'
    · rw [if_pos hc]
      obtain ⟨init, hinit⟩ := ih []
      rw [hinit]
      exact ⟨cur.reverse :: init, by simp⟩
    · rw [if_neg hc]
      exact ih (c :: cur)

theorem pushSeg_normal (aar : Bool) (stack : List (List Char)) (b : List Char)
    (hb : b ≠ []) (hdot : b ≠ ['.']) (hddot : b ≠ ['.', '.']) :
    pushSeg aar stack b = b :: stack := by
  unfold pushSeg
  rw [if_neg (by simp [hb, hdot]), if_neg hddot]

theorem joinSlash_last : ∀ (parts : List (List Char)) (b : List Char),
    ∃ pre, joinSlash (parts ++ [b]) = pre ++ b := by
  intro parts
  induction parts with
  | nil => intro b; exact ⟨[], rfl⟩
  | cons x parts ih =>
    intro b
    obtain ⟨pre, hpre⟩ := ih b
    cases hq : parts ++ [b] with
    | nil => exact absurd hq (by simp)
    | cons q qs =>
      refine ⟨x ++ '/' :: pre, ?_⟩
      rw [List.cons_append, hq, joinSlash]
      · rw [← hq, hpre]; simp
      · simp

/-- If the last slash-separated segment of `l` is a plain name `b` (nonempty,
slash-free, neither `.` nor `..`), the normalized path ends in `b`'s last
character, not in `'/'`. -/
theorem pathNormalizeL_last (l b : List Char) (hl : l ≠ [])
    (hsplit : ∃ init, splitSlash l = init ++ [b])
    (hb : b ≠ []) (hdot : b ≠ ['.']) (hddot : b ≠ ['.', '.'])
    (hblast : b.getLast? ≠ some '/') (hllast : l.getLast? ≠ some '/') :
    (pathNormalizeL l).getLast? ≠ some '/' := by
  obtain ⟨init, hinit⟩ := hsplit
  have hres : ∀ aar, ∃ pre, normalizeStringL l aar = pre ++ b := by
    intro aar
    unfold normalizeStringL
    rw [hinit, List.foldl_append]
    rw [show List.foldl (pushSeg aar) (List.foldl (pushSeg aar) [] init) [b] =
        b :: List.foldl (pushSeg aar) [] init by
      rw [List.foldl_cons, List.foldl_nil, pushSeg_normal aar _ b hb hdot hddot]]
    rw [List.reverse_cons]
    exact joinSlash_last _ b
  unfold pathNormalizeL
  rw [if_neg hl]
  simp only []
  obtain ⟨pre, hpre⟩ := hres (!decide (l.head? = some '/'))
  rw [hpre]
  rw [if_neg (by simp [hb])]
  rw [show decide (l.getLast? = some '/') = false by simp [hllast]]
  simp only [Bool.false_eq_true, if_false]
  have hlast2 : (pre ++ b).getLast? ≠ some '/' := by
    rw [List.getLast?_append_of_ne_nil pre hb]
    exact hblast
  cases hd : decide (l.head? = some '/') with
  | false => simpa using hlast2
  | true =>
    simp only [if_true]
    rw [show ('/' :: (pre ++ b)) = ['/'] ++ (pre ++ b) from rfl]
    rw [List.getLast?_append_of_ne_nil ['/'] (by simp [hb])]
    exact hlast2

theorem ne_zeroJs_of_getLast (s : String) (h : s.data.getLast? ≠ some '/') :
    s ≠ zeroJsDefinitionsImport := by
  intro he
  rw [he] at h
  exact h (by decide)

/-- A path joined with a plain file name never ends in `'/'`, hence never
equals the inert placeholder (which ends in `*/`). -/
theorem pathJoin_ne_zeroJs (p b : String) (hb : b.data ≠ [])
    (hsl : '/' ∉ b.data) (hdot : b.data ≠ ['.']) (hddot : b.data ≠ ['.', '.']) :
    pathJoin p b ≠ zeroJsDefinitionsImport := by
  have hblast : b.data.getLast? ≠ some '/' := getLast?_ne_slash b.data hsl
  apply ne_zeroJs_of_getLast
  unfold pathJoin
  by_cases hp : p.data = []
  · rw [if_pos hp]
    rw [if_neg hb]
    exact pathNormalizeL_last b.data b.data hb ⟨[], by
      unfold splitSlash
      rw [splitSlashAux_no_slash b.data hsl []]
      simp⟩ hb hdot hddot hblast hblast
  · rw [if_neg hp, if_neg hb]
    have hjoin : p.data ++ '/' :: b.data ≠ [] := by simp
    rw [if_neg hjoin]
    apply pathNormalizeL_last (p.data ++ '/' :: b.data) b.data hjoin
    · obtain ⟨init, hinit⟩ := splitSlashAux_last b.data hsl p.data []
      exact ⟨init, hinit⟩
    · exact hb
    · exact hdot
    · exact hddot
    · exact hblast
    · rw [List.getLast?_append_of_ne_nil p.data (by simp)]
      rw [show ('/' :: b.data) = ['/'] ++ b.data from rfl]
      rw [List.getLast?_append_of_ne_nil ['/'] hb]
      exact hblast

/-- A path extended with a nonempty suffix not ending in `'/'` never equals
the inert placeholder. -/
theorem append_ne_zeroJs (p e : String) (he : e.data ≠ [])
    (hlast : e.data.getLast? ≠ some '/') : p ++ e ≠ zeroJsDefinitionsImport := by
  apply ne_zeroJs_of_getLast
  rw [strData_append, List.getLast?_append_of_ne_nil p.data he]
  exact hlast

/-- C10: whenever path confirmation returns a string, that string is either
exactly the inert placeholder or a path whose stat succeeded and was not a
directory (the unchanged input, the input plus a probed extension, or a
directory index file). -/
theorem c10_confirmed_placeholder_or_file (stat : FsStat) (opts : ResolverOptions)
    (p s : String) (h : confirmPath stat opts p = some s) :
    s = zeroJsDefinitionsImport ∨ ∃ k, stat s = some k ∧ k ≠ FKind.dir := by
  unfold confirmPath at h
  split at h
  · -- stat p = some k
    rename_i k heq
    split at h
    · -- existing non-directory: returned unchanged
      rename_i hk
      have hs : p = s := Option.some.inj h
      exact Or.inr ⟨k, by rw [← hs]; exact heq, hk⟩
    · -- directory: index probe
      split at h
      · rename_i found hfe
        have hf := firstExisting_isFile stat _ found hfe
        have hfile : stat found = some FKind.file := by simpa [statIsFile] using hf
        have hs : found = s := Option.some.inj h
        exact Or.inr ⟨FKind.file, by rw [← hs]; exact hfile, by decide⟩
      · split at h
        · exact Or.inl (Option.some.inj h).symm
        · exact absurd h (by simp)
  · -- stat p = none: extension probe
    split at h
    · rename_i found hfe
      have hf := firstExisting_isFile stat _ found hfe
      have hfile : stat found = some FKind.file := by simpa [statIsFile] using hf
      have hs : found = s := Option.some.inj h
      exact Or.inr ⟨FKind.file, by rw [← hs]; exact hfile, by decide⟩
    · split at h
      · split at h
        · exact Or.inl (Option.some.inj h).symm
        · exact absurd h (by simp)
      · exact absurd h (by simp)

/-- C10 witness: a filesystem with a plain file at `/a` and a declaration-only
sibling at `/b.d.ts`; confirmation returns the file and the placeholder
respectively, and the invariant holds for both. -/
theorem c10_witness :
    ("/a" = zeroJsDefinitionsImport ∨
      ∃ k, (fun q : String => if q == "/a" then some FKind.file
        else if q == "/b.d.ts" then some FKind.file else none) "/a" = some k ∧
          k ≠ FKind.dir) ∧
    (zeroJsDefinitionsImport = zeroJsDefinitionsImport ∨
      ∃ k, (fun q : String => if q == "/a" then some FKind.file
        else if q == "/b.d.ts" then some FKind.file else none) zeroJsDefinitionsImport =
          some k ∧ k ≠ FKind.dir) := by
  constructor
  · exact c10_confirmed_placeholder_or_file
      (fun q => if q == "/a" then some FKind.file
        else if q == "/b.d.ts" then some FKind.file else none) defaults "/a" "/a" (by decide)
  · exact c10_confirmed_placeholder_or_file
      (fun q => if q == "/a" then some FKind.file
        else if q == "/b.d.ts" then some FKind.file else none) defaults "/b"
      zeroJsDefinitionsImport (by decide)

theorem firstExisting_mem (stat : FsStat) :
    ∀ l f, firstExisting stat l = some f → f ∈ l := by
  intro l
  induction l with
  | nil => intro f h; simp [firstExisting] at h
  | cons p rem ih =>
    intro f h
    rw [firstExisting] at h
    by_cases hp : statIsFile stat p = true
    · rw [if_pos hp] at h
      simp [← Option.some.inj h]
    · rw [if_neg hp] at h
      exact List.mem_cons_of_mem p (ih f h)

theorem firstExisting_none (stat : FsStat) :
    ∀ l, firstExisting stat l = none → ∀ x ∈ l, statIsFile stat x = false := by
  intro l
  induction l with
  | nil => intro _ x hx; simp at hx
  | cons p rem ih =>
    intro h x hx
    rw [firstExisting] at h
    by_cases hp : statIsFile stat p = true
    · rw [if_pos hp] at h; exact absurd h (by simp)
    · rw [if_neg hp] at h
      rcases List.mem_cons.mp hx with rfl | hx'
      · simpa using hp
      · exact ih h x hx'

theorem extToCheck_facts (opts : ResolverOptions) :
    ∀ e ∈ extToCheck opts, ("index" ++ e).data ≠ [] ∧ '/' ∉ ("index" ++ e).data ∧
      ("index" ++ e).data ≠ ['.'] ∧ ("index" ++ e).data ≠ ['.', '.'] ∧
      e.data ≠ [] ∧ e.data.getLast? ≠ some '/' := by
  intro e he
  unfold extToCheck at he
  cases hm : opts.matchNakedMjs <;> rw [hm] at he <;> simp at he
  · rw [he]
    refine ⟨by decide, by decide, by decide, by decide, by decide, by decide⟩
  · rcases he with rfl | rfl
    · refine ⟨by decide, by decide, by decide, by decide, by decide, by decide⟩
    · refine ⟨by decide, by decide, by decide, by decide, by decide, by decide⟩

/-- C9: the type-only-declaration hide (returning the inert placeholder) can
only happen when `rewritePeerTypes` is set and no sibling script file exists:
an existing non-directory path is returned unchanged, an existing probed
sibling script is returned instead, and when the placeholder is returned the
path is absent or a directory and every probed script candidate misses. The
`hfs` hypothesis states the POSIX fact that a stat of a trailing-slash path is
never a non-directory (the placeholder string itself ends in `/`). -/
theorem c9_hide_only_without_sibling (stat : FsStat) (opts : ResolverOptions)
    (p : String)
    (hfs : ∀ q k, strEndsWith q "/" = true → stat q = some k → k = FKind.dir) :
    ((∃ k, stat p = some k ∧ k ≠ FKind.dir) → confirmPath stat opts p = some p) ∧
    (stat p = none → statIsFile stat (p ++ ".js") = true →
      confirmPath stat opts p = some (p ++ ".js")) ∧
    (confirmPath stat opts p = some zeroJsDefinitionsImport →
      opts.rewritePeerTypes = true ∧
      (∀ k, stat p = some k → k = FKind.dir) ∧
      (stat p = none → ∀ e ∈ extToCheck opts, statIsFile stat (p ++ e) = false) ∧
      (stat p = some FKind.dir →
        ∀ e ∈ extToCheck opts,
          statIsFile stat (pathJoin p ("index" ++ e)) = false)) := by
  refine ⟨?_, ?_, ?_⟩
  · rintro ⟨k, hk, hne⟩
    unfold confirmPath
    split
    · rename_i k' heq
      rw [hk] at heq
      rw [if_pos (show k' ≠ FKind.dir from (Option.some.inj heq) ▸ hne)]
    · rename_i heq
      rw [hk] at heq
      cases heq
  · intro hst hjs
    unfold confirmPath
    split
    · rename_i k' heq
      rw [hst] at heq
      cases heq
    · have hfe : firstExisting stat ((extToCheck opts).map (fun ext => p ++ ext)) =
          some (p ++ ".js") := by
        unfold extToCheck
        cases hm : opts.matchNakedMjs <;> simp only [if_true, if_false, Bool.false_eq_true,
          List.map_cons, List.map_nil] <;> rw [firstExisting, if_pos hjs]
      rw [hfe]
  · intro h
    unfold confirmPath at h
    split at h
    · rename_i k heq
      split at h
      · -- returned unchanged: but the placeholder ends in '/' and so cannot
        -- stat as a non-directory
        rename_i hk
        have hp : p = zeroJsDefinitionsImport := Option.some.inj h
        have : k = FKind.dir := hfs p k (by rw [hp]; decide) heq
        exact absurd this hk
      · rename_i hk
        have hkd : k = FKind.dir := by
          by_cases hd : k = FKind.dir
          · exact hd
          · exact absurd hd (by simpa using hk)
        split at h
        · -- an index sibling was returned: it cannot be the placeholder
          rename_i found hfe
          exfalso
          have hmem := firstExisting_mem stat _ found hfe
          rw [List.mem_map] at hmem
          obtain ⟨e, he, hfound⟩ := hmem
          obtain ⟨f1, f2, f3, f4, _, _⟩ := extToCheck_facts opts e he
          exact pathJoin_ne_zeroJs p ("index" ++ e) f1 f2 f3 f4
            (by rw [hfound]; exact Option.some.inj h)
        · rename_i hfe
          split at h
          · rename_i hcond
            obtain ⟨hrp, _⟩ := Bool.and_eq_true .. |>.mp hcond
            refine ⟨hrp, ?_, ?_, ?_⟩
            · intro k' hk'
              rw [heq] at hk'
              rw [← Option.some.inj hk']
              exact hkd
            · intro hnone
              rw [heq] at hnone
              cases hnone
            · intro _ e he
              exact firstExisting_none stat _ hfe _ (List.mem_map_of_mem _ he)
          · exact absurd h (by simp)
    · rename_i heq
      split at h
      · -- a probed sibling script was returned: it cannot be the placeholder
        rename_i found hfe
        exfalso
        have hmem := firstExisting_mem stat _ found hfe
        rw [List.mem_map] at hmem
        obtain ⟨e, he, hfound⟩ := hmem
        obtain ⟨_, _, _, _, f5, f6⟩ := extToCheck_facts opts e he
        exact append_ne_zeroJs p e f5 f6 (by rw [hfound]; exact Option.some.inj h)
      · rename_i hfe
        split at h
        · rename_i hrp
          split at h
          · refine ⟨hrp, ?_, ?_, ?_⟩
            · intro k' hk'
              rw [heq] at hk'
              cases hk'
            · intro _ e he
              exact firstExisting_none stat _ hfe _ (List.mem_map_of_mem _ he)
            · intro hdir
              rw [heq] at hdir
              cases hdir
          · exact absurd h (by simp)
        · exact absurd h (by simp)

/-- A sample filesystem for the C9 witness: an existing plain entry `/d/x`, a
script `/m.js`, and a declaration-only `/h.d.ts`. -/
def c9stat : FsStat := fun q =>
  if q == "/d/x" then some FKind.other
  else if q == "/m.js" then some FKind.file
  else if q == "/h.d.ts" then some FKind.file else none

/-- C9 witness: `/d/x` is returned unchanged, `/m` picks up its sibling
`/m.js`, and for `/h` — confirmed to the placeholder — the hide facts hold. -/
theorem c9_witness :
    confirmPath c9stat defaults "/d/x" = some "/d/x" ∧
    confirmPath c9stat defaults "/m" = some ("/m" ++ ".js") ∧
    (defaults.rewritePeerTypes = true ∧
      (∀ k, c9stat "/h" = some k → k = FKind.dir) ∧
      (c9stat "/h" = none →
        ∀ e ∈ extToCheck defaults, statIsFile c9stat ("/h" ++ e) = false) ∧
      (c9stat "/h" = some FKind.dir →
        ∀ e ∈ extToCheck defaults,
          statIsFile c9stat (pathJoin "/h" ("index" ++ e)) = false)) := by
  have hfsW : ∀ q k, strEndsWith q "/" = true → c9stat q = some k → k = FKind.dir := by
    intro q k hq hs
    unfold c9stat at hs
    by_cases h1 : (q == "/d/x") = true
    · have := eq_of_beq h1
      subst this
      exact absurd hq (by decide)
    · rw [if_neg h1] at hs
      by_cases h2 : (q == "/m.js") = true
      · have := eq_of_beq h2
        subst this
        exact absurd hq (by decide)
      · rw [if_neg h2] at hs
        by_cases h3 : (q == "/h.d.ts") = true
        · have := eq_of_beq h3
          subst this
          exact absurd hq (by decide)
        · rw [if_neg h3] at hs
          cases hs
  refine ⟨(c9_hide_only_without_sibling c9stat defaults "/d/x" hfsW).1
      ⟨FKind.other, rfl, by decide⟩,
    (c9_hide_only_without_sibling c9stat defaults "/m" hfsW).2.1 rfl (by decide),
    (c9_hide_only_without_sibling c9stat defaults "/h" hfsW).2.2 (by decide)⟩
